import Mathlib

/-!
Shallow embedding of the `voice_lock` repository core
(`src/voice_lock/aes_cipher.py`, `src/voice_lock/wave_proc.py`,
`src/voice_lock/main_window.py`) and proofs of the specified properties.

Numeric amplitudes and scores are modelled with `ℚ` (exact arithmetic) except
for the denoise filter, which is stated over `ℝ` because its window coefficient
uses the cosine function; the filter itself is defined generically over any
field.  Byte strings are modelled as `List ℕ`.
-/

namespace VoiceLock

/-! ## CipherStore — `aes_cipher.py`

PyCryptodome's `AES.new(key, AES.MODE_CFB, iv)` is CFB with an 8-bit segment
size: each plaintext byte is XORed with the first byte of the block encryption
of a 16-byte shift register, and the resulting ciphertext byte is shifted into
the register.  The block cipher under the derived key is modelled abstractly as
a function `blockEnc` from the shift-register contents to the keystream byte;
the round-trip property holds for every such function. -/

/-- The cipher context of `AESCipher.__init__`: the passphrase-derived key is
folded into the abstract block-encryption function `blockEnc`, and `iv` is the
initialization vector held by the object. -/
structure AESCipher where
  blockEnc : List ℕ → ℕ
  iv : List ℕ

/-- One direction of CFB-8: encrypt plaintext bytes `ps` with shift register
`sr`, emitting ciphertext bytes and feeding each back into the register. -/
def cfbEncrypt (E : List ℕ → ℕ) : List ℕ → List ℕ → List ℕ
  | _, [] => []
  | sr, p :: ps =>
    let c := Nat.xor p (E sr % 256)
    c :: cfbEncrypt E (sr.drop 1 ++ [c]) ps

/-- The inverse direction of CFB-8: decrypt ciphertext bytes `cs`, feeding each
ciphertext byte back into the shift register. -/
def cfbDecrypt (E : List ℕ → ℕ) : List ℕ → List ℕ → List ℕ
  | _, [] => []
  | sr, c :: cs =>
    Nat.xor c (E sr % 256) :: cfbDecrypt E (sr.drop 1 ++ [c]) cs

/-- `AESCipher.load_iv`: replace the context's IV with the loaded bytes. -/
def AESCipher.load_iv (c : AESCipher) (ivBytes : List ℕ) : AESCipher :=
  { c with iv := ivBytes }

/-- `AESCipher.encrypt`: `self.iv + AES.new(self.key, MODE_CFB, self.iv).encrypt(raw)`. -/
def AESCipher.encrypt (c : AESCipher) (raw : List ℕ) : List ℕ :=
  c.iv ++ cfbEncrypt c.blockEnc c.iv raw

/-- `AESCipher.decrypt`:
`AES.new(self.key, MODE_CFB, self.iv).decrypt(enc[AES.block_size:])` with
`AES.block_size = 16`; the Python slice `enc[16:]` never fails, it merely
yields the (possibly empty) remainder of the blob. -/
def AESCipher.decrypt (c : AESCipher) (enc : List ℕ) : List ℕ :=
  cfbDecrypt c.blockEnc c.iv (enc.drop 16)

/-- A concrete cipher context used by concrete evaluations: the
block-encryption function sums the shift register, and the IV is the 16 zero
bytes installed by `load_iv`. -/
def sampleCipher : AESCipher :=
  AESCipher.load_iv ⟨fun sr => sr.sum, []⟩ (List.replicate 16 0)

/-! ## FeatureExtractor and SimilarityEngine — `wave_proc.py` -/

/-- `np.amax` / `np.max` on a list: the maximum element (`0` for the empty
list, on which NumPy raises). -/
def npAmax : List ℚ → ℚ
  | [] => 0
  | h :: t => t.foldl max h

/-- `normalize`: `wave_data / np.amax(wave_data)` — element-wise division by
the raw maximum value (not the maximum absolute value). -/
def normalize (wave_data : List ℚ) : List ℚ :=
  wave_data.map (fun v => v / npAmax wave_data)

/-- `np.mean` on a list: sum divided by length. -/
def npMean (l : List ℚ) : ℚ := l.sum / (l.length : ℚ)

/-- Python `range(start, stop, step)` for a positive step. -/
def pyRange (start stop step : ℕ) : List ℕ :=
  (List.range ((stop - start + (step - 1)) / step)).map (fun k => start + k * step)

/-- `envelope`: split the wave into the subsequence of values `≥ 0` and the
absolute values of the subsequence of values `< 0`, then average each
consecutive window of 75 samples, iterating `i` over
`range(0, len - len % 75, 75)` so the trailing partial window is dropped. -/
def envelope (wave : List ℚ) : List ℚ × List ℚ :=
  let plus := wave.filter (fun e => decide (0 ≤ e))
  let minus := (wave.filter (fun e => decide (e < 0))).map (fun e => |e|)
  let a := (pyRange 0 (plus.length - plus.length % 75) 75).map
    (fun i => npMean ((plus.drop i).take 75))
  let b := (pyRange 0 (minus.length - minus.length % 75) 75).map
    (fun i => npMean ((minus.drop i).take 75))
  (a, b)

/-- The zero-padding prologue of `corr`: whichever of the two waves is
shorter is right-padded with zeros to the longer length. -/
def padPair (wave1 wave2 : List ℚ) : List ℚ × List ℚ :=
  (if wave1.length < wave2.length
    then wave1 ++ List.replicate (wave2.length - wave1.length) 0 else wave1,
   if wave2.length < wave1.length
    then wave2 ++ List.replicate (wave1.length - wave2.length) 0 else wave2)

/-- The numerator of `corr`'s final division: `np.max(cor)` where
`cor[i] = Σ_j min(wave2[j], wave[i+j])`, `wave` being the length-`3L` buffer
that holds the padded `wave1` in its middle third. -/
def corrNum (wave1 wave2 : List ℚ) : ℚ :=
  let w1 := (padPair wave1 wave2).1
  let w2 := (padPair wave1 wave2).2
  let wave := List.replicate w1.length 0 ++ w1 ++ List.replicate w1.length 0
  npAmax ((List.range (2 * w1.length + 1)).map
    (fun i => ((List.range w2.length).map
      (fun j => min (w2.getD j 0) (wave.getD (i + j) 0))).sum))

/-- The denominator of `corr`'s final division:
`max(np.sum(wave1), np.sum(wave2))` over the padded waves. -/
def corrDen (wave1 wave2 : List ℚ) : ℚ :=
  max (padPair wave1 wave2).1.sum (padPair wave1 wave2).2.sum

/-- `corr`: the maximal overlap normalized by the larger of the two sums.
Exact-field model: division by zero yields `0` rather than NumPy's NaN; see
`corrChecked` for the embedding that keeps NumPy's `0/0 → NaN` observable. -/
def corr (wave1 wave2 : List ℚ) : ℚ :=
  corrNum wave1 wave2 / corrDen wave1 wave2

/-- `corr_tuple`: average of the two one-sided correlation scores. -/
def corr_tuple (tup1 tup2 : List ℚ × List ℚ) : ℚ :=
  (corr tup1.1 tup2.1 + corr tup1.2 tup2.2) / 2

/-- NumPy float division with the invalid case made explicit: `none` stands
for the NaN that `0.0 / 0.0` produces (NumPy emits a warning, not an error). -/
def npFloatDiv (a b : ℚ) : Option ℚ :=
  if b = 0 then none else some (a / b)

/-- `corr`'s final division under NumPy float semantics: `none` (NaN) exactly
when the normalizing denominator is zero. -/
def corrChecked (wave1 wave2 : List ℚ) : Option ℚ :=
  npFloatDiv (corrNum wave1 wave2) (corrDen wave1 wave2)

/-- The spec's description of `correlate(u, v)` (§4.2), written independently
of the source: zero-pad the shorter input on the right to the common length
`L`, place `u` in the middle third of a length-`3L` zero buffer, take
`overlap i = Σ_{j<L} min(v[j], tiled[i+j])` for the `2L+1` offsets
`i = 0, …, 2L`, and return `max_i overlap i` divided by `max(Σu, Σv)`. -/
def correlateSpec (u v : List ℚ) : ℚ :=
  let L := max u.length v.length
  let up := u ++ List.replicate (L - u.length) 0
  let vp := v ++ List.replicate (L - v.length) 0
  let tiled := List.replicate L 0 ++ up ++ List.replicate L 0
  (Finset.range (2 * L + 1)).sup'
      (Finset.nonempty_range_iff.mpr (Nat.succ_ne_zero _))
      (fun i => ∑ j ∈ Finset.range L, min (vp.getD j 0) (tiled.getD (i + j) 0)) /
    max u.sum v.sum

/-! ## Denoise filter — `wave_proc.py`, `denoise`

The Python loop overwrites `wave_data[i]` in place, so the read of
`wave_data[i-1]` sees the already-filtered value for `i ≥ 1`, and for `i = 0`
Python's negative indexing makes it read the (still raw) last element. -/

/-- One iteration of the in-place denoise loop:
`wave_data[i] = (wave_data[i] - 0.9*wave_data[i-1]) * w(i)` where Python's
index `i-1` wraps to the last index when `i = 0`. -/
def denoiseStep {α : Type} [Field α] (w : ℕ → α) (a : List α) (i : ℕ) : List α :=
  a.set i
    ((a.getD i 0 - 9 / 10 * a.getD (if i = 0 then a.length - 1 else i - 1) 0) * w i)

/-- `denoise`: the in-place loop `for i in range(len(wave_data))`. -/
def denoise {α : Type} [Field α] (w : ℕ → α) (x : List α) : List α :=
  (List.range x.length).foldl (denoiseStep w) x

/-- The closed-form recurrence the filtered sequence satisfies. -/
def denoiseRec {α : Type} [Field α] (w : ℕ → α) (x : List α) : ℕ → α
  | 0 => (x.getD 0 0 - 9 / 10 * x.getD (x.length - 1) 0) * w 0
  | j + 1 => (x.getD (j + 1) 0 - 9 / 10 * denoiseRec w x j) * w (j + 1)

/-- The window coefficient of `denoise`:
`0.54 - 0.46*cos((i-6)*2*pi/180)`, with `0.54 = 54/100`, `0.46 = 46/100`. -/
noncomputable def hamming (i : ℕ) : ℝ :=
  54 / 100 - 46 / 100 * Real.cos (((i : ℝ) - 6) * 2 * Real.pi / 180)

/-! ## AuthenticationService — `main_window.py` -/

/-- The failures an authentication run can surface.  `zeroDivision` models
Python's `ZeroDivisionError`; `emptyTemplateSet` models the
`EmptyTemplateSetError` the spec postulates (no code in the repository ever
raises it). -/
inductive AuthError where
  | zeroDivision
  | emptyTemplateSet
deriving DecidableEq

/-- Outcome of a Python computation: a value, or a raised error. -/
inductive PyResult (α : Type) where
  | ok : α → PyResult α
  | raised : AuthError → PyResult α
deriving DecidableEq

/-- Python division: raises `ZeroDivisionError` on a zero divisor. -/
def pyDiv (a b : ℚ) : PyResult ℚ :=
  if b = 0 then .raised .zeroDivision else .ok (a / b)

/-- An Envelope Feature: the `(plus_bins, minus_bins)` pair. -/
abbrev Feature := List ℚ × List ℚ

/-- `MainWindow.compare`: confidence is
`reduce(lambda r, smp: r + corr_tuple(test, smp), refs, 0) / len(refs)`, and
the decision is the strict comparison `conf > self.threshold`. -/
def compare (test_sample : Feature) (ref_samples : List Feature) (threshold : ℚ) :
    PyResult (ℚ × Bool) :=
  match pyDiv (ref_samples.foldl (fun r smp => r + corr_tuple test_sample smp) 0)
      (ref_samples.length : ℚ) with
  | .raised e => .raised e
  | .ok conf => .ok (conf, decide (threshold < conf))

/-- The Qt signals `TaskThread.run` emits, in order. -/
inductive Event where
  | progress : ℕ → Event
  | completed : ℚ → Event
deriving DecidableEq

/-- `TaskThread.run`: for `i in trange(len(refs))` accumulate
`conf += corr_tuple(test, refs[i])` and emit `update_comparison(i+1)`; then
`conf /= len(refs)` and emit `comparison_completed(conf)`.  Returns the
emitted signal trace together with the outcome of the final division. -/
def run (test_sample : Feature) (ref_samples : List Feature) :
    List Event × PyResult ℚ :=
  let r := (List.range ref_samples.length).foldl
    (fun (acc : ℚ × List Event) i =>
      (acc.1 + corr_tuple test_sample (ref_samples.getD i ([], [])),
       acc.2 ++ [Event.progress (i + 1)]))
    (0, [])
  match pyDiv r.1 (ref_samples.length : ℚ) with
  | .ok c => (r.2 ++ [Event.completed c], .ok c)
  | .raised e => (r.2, .raised e)

/-! ## Theorems -/

lemma cfb_round_trip (E : List ℕ → ℕ) (sr : List ℕ) (ps : List ℕ) :
    cfbDecrypt E sr (cfbEncrypt E sr ps) = ps := by
  induction ps generalizing sr with
  | nil => rfl
  | cons p ps ih =>
    simp [cfbEncrypt, cfbDecrypt, ih]
    exact Nat.xor_cancel_right _ _

lemma cfbDecrypt_length (E : List ℕ → ℕ) (sr : List ℕ) (cs : List ℕ) :
    (cfbDecrypt E sr cs).length = cs.length := by
  induction cs generalizing sr with
  | nil => rfl
  | cons c cs ih => simp [cfbDecrypt, ih]

/-- Claim C1: for every byte blob `b` and every cipher context `c` with a
16-byte IV (whether the IV was generated at construction or installed via
`load_iv`), `decrypt (encrypt b) = b`. -/
theorem decrypt_encrypt_round_trip (c : AESCipher) (b : List ℕ)
    (hiv : c.iv.length = 16) :
    c.decrypt (c.encrypt b) = b := by
  unfold AESCipher.decrypt AESCipher.encrypt
  rw [show (16 : ℕ) = c.iv.length from hiv.symm, List.drop_left]
  exact cfb_round_trip _ _ _

/-- Witness for C1 at a concrete context and blob. -/
theorem decrypt_encrypt_round_trip_witness :
    sampleCipher.iv.length = 16 ∧
      sampleCipher.decrypt (sampleCipher.encrypt [1, 2, 3]) = [1, 2, 3] :=
  ⟨by decide, decrypt_encrypt_round_trip sampleCipher [1, 2, 3] (by decide)⟩

/-- Claim C6 counterexample: `decrypt` does not fail on a blob with fewer
than 16 bytes — at the concrete 0-byte blob it returns the empty plaintext
(the slice `enc[16:]` is simply empty), and a 20-byte blob yields a 4-byte
plaintext without raising. -/
theorem decrypt_short_blob_counterexample :
    sampleCipher.decrypt [] = [] ∧
      (sampleCipher.decrypt (List.replicate 20 7)).length = 4 := by decide

/-- Claim C6 (amended): `decrypt` never fails; for every blob it returns a
(possibly garbage) plaintext of length `len(blob) - 16` (truncated
subtraction: `0` when the blob is shorter than the 16-byte IV prefix). -/
theorem decrypt_total_length (c : AESCipher) (blob : List ℕ) :
    (c.decrypt blob).length = blob.length - 16 := by
  simp [AESCipher.decrypt, cfbDecrypt_length]

/-- Claim C5 counterexample: at a concrete probe feature and threshold,
`compare` with an empty template list raises `ZeroDivisionError`
(`0 / len([]) = 0 / 0`), not the `EmptyTemplateSetError` the claim names. -/
theorem compare_empty_templates_counterexample :
    compare ([1], [1]) [] (6 / 10) = .raised .zeroDivision ∧
      ¬compare ([1], [1]) [] (6 / 10) = .raised .emptyTemplateSet := by decide

/-- Claim C5 (amended): for every probe and threshold, `compare` with an
empty template set performs an unguarded division by `len(templates) = 0`
and raises `ZeroDivisionError`; no `EmptyTemplateSetError` exists in the
code, and no confidence value is produced. -/
theorem compare_empty_templates (test : Feature) (threshold : ℚ) :
    compare test [] threshold = .raised .zeroDivision := by
  simp [compare, pyDiv]

/-- Claim C10: the normalization division in `corr` is unguarded — at the
concrete input of two empty bin lists (produced by `envelope` for any wave
with fewer than 75 nonnegative and fewer than 75 negative filtered values,
e.g. ten samples of `1`) the denominator `max(Σu, Σv)` is `0`, the numerator
is `0`, and under NumPy float semantics the result is NaN (`none`) rather
than an error. -/
theorem corr_division_unguarded :
    envelope (List.replicate 10 1) = ([], []) ∧
      corrDen [] [] = 0 ∧ corrNum [] [] = 0 ∧ corrChecked [] [] = none := by
  decide

/-- Claim C8: for a non-empty template list, `compare` returns a confidence
and a decision, and the decision is `true` exactly when the confidence is
strictly greater than the threshold; confidence equal to the threshold
decides `false`. -/
theorem compare_strict_threshold (test : Feature) (refs : List Feature)
    (threshold : ℚ) (h : refs ≠ []) :
    ∃ conf d, compare test refs threshold = .ok (conf, d) ∧
      (d = true ↔ threshold < conf) ∧ (conf = threshold → d = false) := by
  have h0 : refs.length ≠ 0 := fun hh => h (List.length_eq_zero.mp hh)
  have hl : (refs.length : ℚ) ≠ 0 := Nat.cast_ne_zero.mpr h0
  set conf := refs.foldl (fun r smp => r + corr_tuple test smp) 0 / (refs.length : ℚ)
  refine ⟨conf, decide (threshold < conf), ?_, decide_eq_true_iff, fun hct => ?_⟩
  · simp [compare, pyDiv, hl, conf]
  · rw [hct]
    simp

/-- Witness for C8 at a concrete probe, one enrolled template and
threshold `0.6`. -/
theorem compare_strict_threshold_witness :
    ∃ conf d, compare ([1], [1]) [([1], [1])] (6 / 10) = .ok (conf, d) ∧
      (d = true ↔ (6 / 10 : ℚ) < conf) ∧ (conf = 6 / 10 → d = false) :=
  compare_strict_threshold ([1], [1]) [([1], [1])] (6 / 10) (by decide)

lemma run_loop_trace (f : ℕ → ℚ) (g : ℕ → Event) (n : ℕ) :
    (List.range n).foldl
        (fun (acc : ℚ × List Event) i => (acc.1 + f i, acc.2 ++ [g i])) (0, []) =
      ((List.range n).foldl (fun r i => r + f i) 0, (List.range n).map g) := by
  induction n with
  | zero => rfl
  | succ n ih => simp [List.range_succ, ih]

/-- Claim C9: for a non-empty template list, the background run emits the
progress notifications `1, 2, …, T` in enrollment order, one per template,
followed by exactly one completion notification carrying the final
confidence (the mean of the per-template scores). -/
theorem run_signal_trace (test : Feature) (refs : List Feature) (h : refs ≠ []) :
    (run test refs).1 =
      (List.range refs.length).map (fun i => Event.progress (i + 1)) ++
        [Event.completed
          ((List.range refs.length).foldl
              (fun r i => r + corr_tuple test (refs.getD i ([], []))) 0 /
            (refs.length : ℚ))] := by
  have h0 : refs.length ≠ 0 := fun hh => h (List.length_eq_zero.mp hh)
  have hl : (refs.length : ℚ) ≠ 0 := Nat.cast_ne_zero.mpr h0
  simp [run, run_loop_trace, pyDiv, hl]

/-- Witness for C9 with one template: the trace is one progress signal
followed by one completion signal. -/
theorem run_signal_trace_witness :
    (run ([1], [1]) [([1], [1])]).1 =
      (List.range [([1], [1])].length).map (fun i => Event.progress (i + 1)) ++
        [Event.completed
          ((List.range [([1], [1])].length).foldl
              (fun r i => r + corr_tuple ([1], [1]) ([([1], [1])].getD i ([], []))) 0 /
            ([([1], [1])].length : ℚ))] :=
  run_signal_trace ([1], [1]) [([1], [1])] (by decide)

lemma foldl_max_map (f : ℚ → ℚ) (hf : ∀ a b, f (max a b) = max (f a) (f b)) :
    ∀ (t : List ℚ) (h : ℚ), (t.map f).foldl max (f h) = f (t.foldl max h)
  | [], _ => rfl
  | a :: t, h => by
    simp only [List.map_cons, List.foldl_cons]
    rw [← hf, foldl_max_map f hf t (max h a)]

lemma npAmax_map (f : ℚ → ℚ) (hf : ∀ a b, f (max a b) = max (f a) (f b))
    (x : List ℚ) (hx : x ≠ []) : npAmax (x.map f) = f (npAmax x) := by
  cases x with
  | nil => cases hx rfl
  | cons h t => simpa [npAmax] using foldl_max_map f hf t h

/-- Claim C7: `normalize` divides every amplitude by the raw maximum of the
Sample; for a non-empty Sample with positive maximum the normalized maximum
is exactly `1`, and `normalize (c • x) = normalize x` for every positive
scalar `c`. -/
theorem normalize_raw_max (x : List ℚ) (c : ℚ) (hx : x ≠ [])
    (hmax : 0 < npAmax x) (hc : 0 < c) :
    normalize x = x.map (fun v => v / npAmax x) ∧
      npAmax (normalize x) = 1 ∧
      normalize (x.map (fun v => c * v)) = normalize x := by
  have hfdiv : ∀ a b : ℚ, max a b / npAmax x = max (a / npAmax x) (b / npAmax x) :=
    fun a b =>
      Monotone.map_max (f := fun v => v / npAmax x)
        (fun u v huv => div_le_div_of_nonneg_right huv hmax.le)
  have hfmul : ∀ a b : ℚ, c * max a b = max (c * a) (c * b) :=
    fun a b =>
      Monotone.map_max (f := fun v => c * v)
        (fun u v huv => mul_le_mul_of_nonneg_left huv hc.le)
  refine ⟨rfl, ?_, ?_⟩
  · rw [show normalize x = x.map (fun v => v / npAmax x) from rfl,
      npAmax_map _ hfdiv x hx, div_self hmax.ne']
  · show (x.map fun v => c * v).map
        (fun v => v / npAmax (x.map fun v => c * v)) = normalize x
    rw [npAmax_map _ hfmul x hx, List.map_map]
    have hcomp : ((fun v => v / (c * npAmax x)) ∘ fun v => c * v) =
        fun v => v / npAmax x := by
      funext v
      exact mul_div_mul_left v (npAmax x) hc.ne'
    rw [hcomp]
    rfl

/-- Witness for C7 at `x = [1, 2]` and `c = 3`. -/
theorem normalize_raw_max_witness :
    normalize [1, 2] = ([1, 2] : List ℚ).map (fun v => v / npAmax [1, 2]) ∧
      npAmax (normalize [1, 2]) = 1 ∧
      normalize (([1, 2] : List ℚ).map (fun v => 3 * v)) = normalize [1, 2] :=
  normalize_raw_max [1, 2] 3 (by decide) (by decide) (by decide)

lemma getD_map_range {β : Type} (n j : ℕ) (f : ℕ → β) (d : β) (h : j < n) :
    ((List.range n).map f).getD j d = f j := by
  rw [List.getD_eq_getElem?_getD, List.getElem?_map, List.getElem?_range h]
  rfl

lemma envelope_side_length (l : List ℚ) :
    ((pyRange 0 (l.length - l.length % 75) 75).map
        (fun i => npMean ((l.drop i).take 75))).length = l.length / 75 := by
  simp only [pyRange, List.map_map, List.length_map, List.length_range]
  omega

lemma envelope_side_getD (l : List ℚ) (j : ℕ) (hj : j < l.length / 75) :
    ((pyRange 0 (l.length - l.length % 75) 75).map
        (fun i => npMean ((l.drop i).take 75))).getD j 0 =
      ((l.drop (j * 75)).take 75).sum / 75 := by
  have hcnt : j < (l.length - l.length % 75 - 0 + (75 - 1)) / 75 := by omega
  rw [pyRange, List.map_map, getD_map_range _ _ _ _ hcnt]
  have hlen : ((l.drop (j * 75)).take 75).length = 75 := by
    rw [List.length_take, List.length_drop]
    omega
  simp only [Function.comp, zero_add, npMean, hlen, Nat.cast_ofNat]

/-- Claim C4: for every filtered sequence, with `P` nonnegative values and
`M` negative values, `envelope` returns exactly `P / 75` positive bins and
`M / 75` negative bins (integer division, regardless of remainder — in
particular zero bins when a side has fewer than 75 values), and every
complete 75-sample window is reduced to its arithmetic mean (`sum / 75`),
the trailing partial window being discarded. -/
theorem envelope_windows (wave : List ℚ) (j k : ℕ) :
    (envelope wave).1.length = (wave.filter (fun e => decide (0 ≤ e))).length / 75 ∧
      (envelope wave).2.length =
        ((wave.filter (fun e => decide (e < 0))).map (fun e => |e|)).length / 75 ∧
      (j < (wave.filter (fun e => decide (0 ≤ e))).length / 75 →
        (envelope wave).1.getD j 0 =
          (((wave.filter (fun e => decide (0 ≤ e))).drop (j * 75)).take 75).sum / 75) ∧
      (k < ((wave.filter (fun e => decide (e < 0))).map (fun e => |e|)).length / 75 →
        (envelope wave).2.getD k 0 =
          ((((wave.filter (fun e => decide (e < 0))).map (fun e => |e|)).drop
            (k * 75)).take 75).sum / 75) :=
  ⟨envelope_side_length _, envelope_side_length _,
    fun hj => envelope_side_getD _ j hj, fun hk => envelope_side_getD _ k hk⟩

/-- Witness for C4 on a wave of 75 positive followed by 75 negative samples:
one complete window on each side, both window-mean premises discharged. -/
theorem envelope_windows_witness :
    (envelope (List.replicate 75 1 ++ List.replicate 75 (-1))).1.length =
        ((List.replicate 75 (1 : ℚ) ++ List.replicate 75 (-1)).filter
          (fun e => decide (0 ≤ e))).length / 75 ∧
      (envelope (List.replicate 75 1 ++ List.replicate 75 (-1))).2.length =
        (((List.replicate 75 (1 : ℚ) ++ List.replicate 75 (-1)).filter
          (fun e => decide (e < 0))).map (fun e => |e|)).length / 75 ∧
      (envelope (List.replicate 75 1 ++ List.replicate 75 (-1))).1.getD 0 0 =
        ((((List.replicate 75 (1 : ℚ) ++ List.replicate 75 (-1)).filter
          (fun e => decide (0 ≤ e))).drop (0 * 75)).take 75).sum / 75 ∧
      (envelope (List.replicate 75 1 ++ List.replicate 75 (-1))).2.getD 0 0 =
        (((((List.replicate 75 (1 : ℚ) ++ List.replicate 75 (-1)).filter
          (fun e => decide (e < 0))).map (fun e => |e|)).drop (0 * 75)).take 75).sum / 75 :=
  ⟨(envelope_windows (List.replicate 75 1 ++ List.replicate 75 (-1)) 0 0).1,
    (envelope_windows (List.replicate 75 1 ++ List.replicate 75 (-1)) 0 0).2.1,
    (envelope_windows (List.replicate 75 1 ++ List.replicate 75 (-1)) 0 0).2.2.1
      (by decide),
    (envelope_windows (List.replicate 75 1 ++ List.replicate 75 (-1)) 0 0).2.2.2
      (by decide)⟩

lemma getD_set_ne {β : Type} (l : List β) (i j : ℕ) (v d : β) (h : i ≠ j) :
    (l.set i v).getD j d = l.getD j d := by
  rw [List.getD_eq_getElem?_getD, List.getD_eq_getElem?_getD, List.getElem?_set,
    if_neg h]

lemma getD_set_self {β : Type} (l : List β) (i : ℕ) (v d : β) (h : i < l.length) :
    (l.set i v).getD i d = v := by
  rw [List.getD_eq_getElem?_getD, List.getElem?_set, if_pos rfl, if_pos h]
  rfl

lemma denoise_foldl_invariant {α : Type} [Field α] (w : ℕ → α) (x : List α) :
    ∀ k, k ≤ x.length →
      ((List.range k).foldl (denoiseStep w) x).length = x.length ∧
      (∀ j, k ≤ j →
        ((List.range k).foldl (denoiseStep w) x).getD j 0 = x.getD j 0) ∧
      (∀ j, j < k →
        ((List.range k).foldl (denoiseStep w) x).getD j 0 = denoiseRec w x j) := by
  intro k
  induction k with
  | zero =>
    exact fun _ => ⟨rfl, fun j _ => rfl, fun j hj => absurd hj (Nat.not_lt_zero j)⟩
  | succ k ih =>
    intro hk1
    have hklt : k < x.length := hk1
    obtain ⟨hlen, hsuffix, hprefix⟩ := ih (Nat.le_of_succ_le hk1)
    set a := (List.range k).foldl (denoiseStep w) x with ha
    have hstep : (List.range (k + 1)).foldl (denoiseStep w) x = denoiseStep w a k := by
      rw [List.range_succ, List.foldl_append]
      rfl
    have hread1 : a.getD k 0 = x.getD k 0 := hsuffix k le_rfl
    have hread2 : a.getD (if k = 0 then a.length - 1 else k - 1) 0 =
        (if k = 0 then x.getD (x.length - 1) 0 else denoiseRec w x (k - 1)) := by
      rw [hlen]
      by_cases h0 : k = 0
      · rw [if_pos h0, if_pos h0]
        exact hsuffix _ (h0 ▸ Nat.zero_le _)
      · rw [if_neg h0, if_neg h0]
        exact hprefix (k - 1) (by omega)
    have hval : denoiseStep w a k = a.set k (denoiseRec w x k) := by
      unfold denoiseStep
      congr 1
      rw [hread1, hread2]
      cases k with
      | zero => simp [denoiseRec]
      | succ m => simp [denoiseRec]
    refine ⟨?_, ?_, ?_⟩
    · rw [hstep, hval, List.length_set, hlen]
    · intro j hj
      rw [hstep, hval, getD_set_ne _ _ _ _ _ (by omega)]
      exact hsuffix j (by omega)
    · intro j hj
      rw [hstep, hval]
      rcases Nat.lt_succ_iff_lt_or_eq.mp hj with hlt | heq
      · rw [getD_set_ne _ _ _ _ _ (by omega)]
        exact hprefix j hlt
      · subst heq
        exact getD_set_self _ _ _ _ (hlen ▸ hklt)

/-- Claim C3: the denoise step computes, in order,
`y[i] = (x[i] - 0.9*y[i-1]) * (0.54 - 0.46*cos((i-6)*2π/180))`, where for
`i ≥ 1` the value read one position back is the already-filtered value
`y[i-1]`, and on the first iteration the read wraps around to the last
element of the sequence. -/
theorem denoise_recurrence (x : List ℝ) (i : ℕ) (hx : x ≠ []) (hi : i < x.length) :
    (denoise hamming x).getD i 0 =
      (x.getD i 0 - 9 / 10 *
          (if i = 0 then x.getD (x.length - 1) 0
           else (denoise hamming x).getD (i - 1) 0)) * hamming i := by
  obtain ⟨-, -, hpre⟩ := denoise_foldl_invariant hamming x x.length le_rfl
  have hd : ∀ j, j < x.length → (denoise hamming x).getD j 0 = denoiseRec hamming x j :=
    fun j hj => hpre j hj
  rw [hd i hi]
  cases i with
  | zero => simp [denoiseRec]
  | succ m =>
    simp only [Nat.add_sub_cancel, Nat.succ_ne_zero, if_false]
    rw [hd m (by omega)]
    simp [denoiseRec]

/-- Witness for C3 at `x = [1, 2]` and `i = 1`. -/
theorem denoise_recurrence_witness :
    (denoise hamming [(1 : ℝ), 2]).getD 1 0 =
      (([(1 : ℝ), 2]).getD 1 0 - 9 / 10 *
          (if (1 : ℕ) = 0 then ([(1 : ℝ), 2]).getD ([(1 : ℝ), 2].length - 1) 0
           else (denoise hamming [(1 : ℝ), 2]).getD (1 - 1) 0)) * hamming 1 :=
  denoise_recurrence [1, 2] 1 (by simp) (by simp)

lemma npAmax_append_singleton (l : List ℚ) (a : ℚ) (hl : l ≠ []) :
    npAmax (l ++ [a]) = max (npAmax l) a := by
  cases l with
  | nil => cases hl rfl
  | cons h t => simp [npAmax, List.foldl_append]

lemma sup'_congr_set (s t : Finset ℕ) (hs : s.Nonempty) (ht : t.Nonempty)
    (h : s = t) (f : ℕ → ℚ) : s.sup' hs f = t.sup' ht f := by
  subst h
  rfl

lemma npAmax_map_range (n : ℕ) (f : ℕ → ℚ) :
    npAmax ((List.range (n + 1)).map f) =
      (Finset.range (n + 1)).sup'
        (Finset.nonempty_range_iff.mpr (Nat.succ_ne_zero n)) f := by
  induction n with
  | zero => simp [npAmax, List.range_succ, Finset.range_one]
  | succ n ih =>
    rw [List.range_succ, List.map_append]
    simp only [List.map_cons, List.map_nil]
    rw [npAmax_append_singleton _ _ (by simp), ih]
    rw [sup'_congr_set (Finset.range (n + 1 + 1)) (insert (n + 1) (Finset.range (n + 1)))
        (Finset.nonempty_range_iff.mpr (Nat.succ_ne_zero _)) (Finset.insert_nonempty _ _)
        Finset.range_succ f,
      Finset.sup'_insert]
    exact sup_comm (α := ℚ) _ _

lemma sum_map_range (n : ℕ) (f : ℕ → ℚ) :
    ((List.range n).map f).sum = ∑ j ∈ Finset.range n, f j := by
  induction n with
  | zero => simp
  | succ n ih => simp [List.range_succ, Finset.sum_range_succ, ih]

lemma padPair_eq (u v : List ℚ) :
    padPair u v =
      (u ++ List.replicate (max u.length v.length - u.length) 0,
       v ++ List.replicate (max u.length v.length - v.length) 0) := by
  unfold padPair
  rcases Nat.lt_trichotomy u.length v.length with h | h | h
  · rw [if_pos h, if_neg (by omega), Nat.max_eq_right h.le, Nat.sub_self]
    simp
  · rw [if_neg (by omega), if_neg (by omega), h, Nat.max_self, Nat.sub_self]
    simp
  · rw [if_neg (by omega), if_pos h, Nat.max_eq_left h.le, Nat.sub_self]
    simp

lemma length_pad (u : List ℚ) (L : ℕ) (h : u.length ≤ L) :
    (u ++ List.replicate (L - u.length) (0 : ℚ)).length = L := by
  simp
  omega

lemma sum_pad (u : List ℚ) (n : ℕ) :
    (u ++ List.replicate n (0 : ℚ)).sum = u.sum := by
  simp

lemma corr_eq_correlateSpec (u v : List ℚ) : corr u v = correlateSpec u v := by
  unfold corr corrNum corrDen correlateSpec
  simp only [padPair_eq]
  rw [length_pad u (max u.length v.length) (Nat.le_max_left _ _),
    length_pad v (max u.length v.length) (Nat.le_max_right _ _),
    npAmax_map_range]
  simp only [sum_map_range]
  rw [sum_pad, sum_pad]

/-- Claim C2: `corr_tuple` is the average of the two one-sided correlation
scores, each computed exactly as the spec describes `correlate`
(zero-padding to the common length, middle-third tiling, `2L+1` offsets of
the element-wise-minimum overlap, maximum normalized by the larger sum). -/
theorem corr_tuple_eq_spec (a b : List ℚ × List ℚ) :
    corr_tuple a b = (correlateSpec a.1 b.1 + correlateSpec a.2 b.2) / 2 := by
  unfold corr_tuple
  rw [corr_eq_correlateSpec, corr_eq_correlateSpec]

end VoiceLock
